import Mathlib

/-
Verification of the dice-rolling core of `hb_carbon_2026` (`src/App.tsx`).

The embedding models JavaScript numbers as elements of a linear ordered
field, instantiated at `ℝ` for the theorems so that the square roots and
trigonometric functions used by the source are available exactly.

Components modelled, mirroring the source:
 * `faceMap` / `getDiceValue`  — the face resolver (App.tsx lines 16–39);
 * `useFrameTick`              — the per-frame settle poll of one die
                                 (App.tsx lines 121–137);
 * `roll`                      — the throw launcher, recorded as the list of
                                 rigid-body commands it issues (lines 72–115);
 * `onSettled` / `rollAll`     — the App-level roll session (lines 168–174
                                 and 262–311);
 * `dieTick` / `sysRun`        — composition of the three dice with the
                                 session, for the temporal claims.
-/

namespace HbCarbon

variable {K : Type} [LinearOrderedField K]

/-- Three-component vector, mirroring `THREE.Vector3`. -/
structure Vec3 (K : Type) where
  x : K
  y : K
  z : K
deriving DecidableEq

/-- Quaternion `(x, y, z, w)`, mirroring `THREE.Quaternion`. -/
structure Quat (K : Type) where
  x : K
  y : K
  z : K
  w : K
deriving DecidableEq

/-- Dot product of two vectors (`THREE.Vector3.dot`). -/
def dot (a b : Vec3 K) : K :=
  a.x * b.x + a.y * b.y + a.z * b.z

/-- The fixed world-up vector `UP = (0, 1, 0)` from App.tsx line 16. -/
def UP : Vec3 K := ⟨0, 1, 0⟩

/-- `THREE.Vector3.applyQuaternion`: rotate `v` by the quaternion `q`
(`t = 2 * cross(q.xyz, v)`; result `v + q.w * t + cross(q.xyz, t)`). -/
def applyQuaternion (v : Vec3 K) (q : Quat K) : Vec3 K :=
  let tx := 2 * (q.y * v.z - q.z * v.y)
  let ty := 2 * (q.z * v.x - q.x * v.z)
  let tz := 2 * (q.x * v.y - q.y * v.x)
  ⟨v.x + q.w * tx + (q.y * tz - q.z * ty),
   v.y + q.w * ty + (q.z * tx - q.x * tz),
   v.z + q.w * tz + (q.x * ty - q.y * tx)⟩

/-- One entry of the face table: a local direction and its face value. -/
structure Face (K : Type) where
  dir : Vec3 K
  value : ℤ
deriving DecidableEq

/-- The face table from App.tsx lines 17–24:
`+Y→1, −Y→6, +X→4, −X→3, +Z→5, −Z→2`. -/
def faceMap : List (Face K) :=
  [⟨⟨0, 1, 0⟩, 1⟩, ⟨⟨0, -1, 0⟩, 6⟩, ⟨⟨1, 0, 0⟩, 4⟩,
   ⟨⟨-1, 0, 0⟩, 3⟩, ⟨⟨0, 0, 1⟩, 5⟩, ⟨⟨0, 0, -1⟩, 2⟩]

/-- The JavaScript comparison `score > bestScore` where `bestScore` starts at
`-Infinity` (modelled by `none`): against `-Infinity` every score wins. -/
def gtBest (score : K) (best : Option K) : Bool :=
  match best with
  | none => true
  | some b => decide (b < score)

/-- `getDiceValue` from App.tsx lines 26–39: fold over the face table keeping
the entry whose rotated direction has the strictly largest dot product with
`UP`; `bestValue` starts at `1`, `bestScore` at `-Infinity`. -/
def getDiceValue (worldQuat : Quat K) : ℤ :=
  (faceMap.foldl
    (fun acc f =>
      let worldDir := applyQuaternion f.dir worldQuat
      let score := dot worldDir UP
      if gtBest score acc.2 then (f.value, some score) else acc)
    ((1 : ℤ), (none : Option K))).1

/-- The score the loop body of `getDiceValue` computes for one face entry. -/
def faceScore (worldQuat : Quat K) (f : Face K) : K :=
  dot (applyQuaternion f.dir worldQuat) UP

/-- The loop body of `getDiceValue`, named for the fold lemmas. -/
def resolveStep (worldQuat : Quat K) (acc : ℤ × Option K) (f : Face K) :
    ℤ × Option K :=
  if gtBest (faceScore worldQuat f) acc.2 then
    (f.value, some (faceScore worldQuat f))
  else acc

/-- `Math.hypot(v.x, v.y, v.z)`: the Euclidean norm. -/
noncomputable def hypot3 (v : Vec3 ℝ) : ℝ :=
  Real.sqrt (v.x ^ 2 + v.y ^ 2 + v.z ^ 2)

/-- The observable state of one rigid body, as read by the per-frame poll:
linear velocity (`linvel()`), angular velocity (`angvel()`) and orientation
(`rotation()`). -/
structure Body where
  linvel : Vec3 ℝ
  angvel : Vec3 ℝ
  rotation : Quat ℝ

/-- The `useFrame` callback of one die (App.tsx lines 121–137): while not
rolling do nothing; with no body handle do nothing; otherwise settle — emit
the resolved face value and clear the rolling flag — exactly when both the
linear speed and the angular speed are strictly below `0.05`.  Returns the
new rolling flag and the emitted face value, if any. -/
noncomputable def useFrameTick (rolling : Bool) (body : Option Body) :
    Bool × Option ℤ :=
  if rolling = false then (rolling, none)
  else
    match body with
    | none => (rolling, none)
    | some b =>
      let speed := hypot3 b.linvel
      let spin := hypot3 b.angvel
      if speed < 0.05 ∧ spin < 0.05 then
        (false, some (getDiceValue b.rotation))
      else (rolling, none)

/-- Iterated per-frame polls of one die: thread the rolling flag through a
sequence of observed body states, collecting every emitted face value. -/
noncomputable def tickTrace : Bool → List (Option Body) → Bool × List ℤ
  | rolling, [] => (rolling, [])
  | rolling, b :: bs =>
    let s := useFrameTick rolling b
    let rest := tickTrace s.1 bs
    (rest.1, s.2.toList ++ rest.2)

/-- `THREE.Quaternion.setFromEuler` for the default `XYZ` axis order. -/
noncomputable def quatFromEuler (ex ey ez : ℝ) : Quat ℝ :=
  let c1 := Real.cos (ex / 2)
  let c2 := Real.cos (ey / 2)
  let c3 := Real.cos (ez / 2)
  let s1 := Real.sin (ex / 2)
  let s2 := Real.sin (ey / 2)
  let s3 := Real.sin (ez / 2)
  ⟨s1 * c2 * c3 + c1 * s2 * s3,
   c1 * s2 * c3 - s1 * c2 * s3,
   c1 * c2 * s3 + s1 * s2 * c3,
   c1 * c2 * c3 - s1 * s2 * s3⟩

/-- One mutation issued to the rigid-body handle by `roll`. -/
inductive Cmd where
  | setTranslation (v : Vec3 ℝ)
  | setLinvel (v : Vec3 ℝ)
  | setAngvel (v : Vec3 ℝ)
  | setRotation (q : Quat ℝ)
  | wakeUp
  | applyImpulse (v : Vec3 ℝ)
  | applyTorqueImpulse (v : Vec3 ℝ)

/-- Whether a command is a linear impulse. -/
def Cmd.isImpulse : Cmd → Bool
  | .applyImpulse _ => true
  | _ => false

/-- Whether a command is a torque impulse. -/
def Cmd.isTorqueImpulse : Cmd → Bool
  | .applyTorqueImpulse _ => true
  | _ => false

/-- `const impulseStrength = 3.5` (App.tsx line 100). -/
def impulseStrength : ℝ := 3.5

/-- `const upBoost = 2.0` (App.tsx line 101). -/
def upBoost : ℝ := 2.0

/-- `const torqueStrength = 10.0` (App.tsx line 110). -/
def torqueStrength : ℝ := 10.0

/-- The `roll` closure of one die (App.tsx lines 72–115).  With no body
handle it returns immediately, leaving the rolling flag unchanged.  With a
body it sets the rolling flag and issues, in order: teleport to the spawn
position, zero linear and angular velocity, a random rotation built from
three Euler angles `random() * π * 2`, a wake-up, one linear impulse
`((r−0.5)·3.5, 2.0 + r·1.0, (r−0.5)·3.5)` and one torque impulse with each
component `(r−0.5)·10.0`.  The nine random draws are passed explicitly, in
the order the source draws them. -/
noncomputable def roll (bodyPresent rolling : Bool) (spawn : Vec3 ℝ)
    (r : Fin 9 → ℝ) : Bool × List Cmd :=
  if bodyPresent = false then (rolling, [])
  else
    (true,
     [Cmd.setTranslation spawn,
      Cmd.setLinvel ⟨0, 0, 0⟩,
      Cmd.setAngvel ⟨0, 0, 0⟩,
      Cmd.setRotation (quatFromEuler (r 0 * Real.pi * 2) (r 1 * Real.pi * 2)
        (r 2 * Real.pi * 2)),
      Cmd.wakeUp,
      Cmd.applyImpulse ⟨(r 3 - 0.5) * impulseStrength,
        upBoost + r 5 * 1.0, (r 4 - 0.5) * impulseStrength⟩,
      Cmd.applyTorqueImpulse ⟨(r 6 - 0.5) * torqueStrength,
        (r 7 - 0.5) * torqueStrength, (r 8 - 0.5) * torqueStrength⟩])

/-- `const N = 3` (App.tsx line 161): the number of dice. -/
def N : ℕ := 3

/-- The aggregation state owned by `App`: `pendingValues`, `finalValues` and
the modal flag (the completion predicate `sum === 3` opens the modal). -/
structure AppState where
  pendingValues : List (Option ℤ)
  finalValues : Option (List ℤ)
  modalOpen : Bool
deriving DecidableEq

/-- The `onSettled` handler of die `i` (App.tsx lines 266–309): write the
reported value into slot `i`; if afterwards every slot is non-null, publish
the completed vector to `finalValues` and evaluate the completion predicate
(`sum === 3` opens the modal); otherwise only the pending slot changes. -/
def onSettled (i : ℕ) (v : ℤ) (s : AppState) : AppState :=
  let next := s.pendingValues.set i (some v)
  if next.all (fun x => x.isSome) then
    let vals := next.reduceOption
    let sum := vals.sum
    { pendingValues := next,
      finalValues := some vals,
      modalOpen := if sum = 3 then true else s.modalOpen }
  else
    { pendingValues := next,
      finalValues := s.finalValues,
      modalOpen := s.modalOpen }

/-- The initial `App` state: `pendingValues` all null, no final values, the
modal closed. -/
def initApp : AppState := ⟨List.replicate N none, none, false⟩

/-- `rollAll` (App.tsx lines 168–174): reset `pendingValues` to all-null,
clear `finalValues`, close the modal, and call `roll()` on every present
die handle.  The second component records which die indices are launched. -/
def rollAll (prior : AppState) (refs : List Bool) : AppState × List ℕ :=
  match prior with
  | _ =>
    (⟨List.replicate N none, none, false⟩,
     (List.range refs.length).filter (fun i => refs.getD i false))

/-- Whether the `onSettled` update for `(i, v)` on state `s` takes the
completion branch (all slots non-null after the write). -/
def completionFired (i : ℕ) (v : ℤ) (s : AppState) : Bool :=
  (s.pendingValues.set i (some v)).all (fun x => x.isSome)

/-- Whether every die has reported in the current cycle. -/
def allReported (s : AppState) : Bool :=
  s.pendingValues.all (fun x => x.isSome)

/-- The composed system state: the per-die rolling flags together with the
App aggregation state. -/
structure SysState where
  rolling : List Bool
  app : AppState

/-- One die's share of a simulated frame: run its `useFrame` callback; on a
settle emission clear its rolling flag and run `onSettled`.  The second
component counts whether this step took the completion branch. -/
noncomputable def dieTick (b : Option Body) (i : ℕ) (s : SysState) :
    SysState × ℕ :=
  match useFrameTick (s.rolling.getD i false) b with
  | (_, none) => (s, 0)
  | (_, some v) =>
    (⟨s.rolling.set i false, onSettled i v s.app⟩,
     if completionFired i v s.app then 1 else 0)

/-- Run the per-die frame callbacks for the given die indices in order,
summing the completion-branch count. -/
noncomputable def diceTicksAux (env : ℕ → Option Body) :
    List ℕ → SysState → SysState × ℕ
  | [], s => (s, 0)
  | i :: rest, s =>
    let t := dieTick (env i) i s
    let further := diceTicksAux env rest t.1
    (further.1, t.2 + further.2)

/-- One simulated frame of the whole system: each of the `N` dice polls the
body state the environment shows it. -/
noncomputable def sysTick (env : ℕ → Option Body) (s : SysState) :
    SysState × ℕ :=
  diceTicksAux env (List.range N) s

/-- Run a sequence of simulated frames, summing the completion count. -/
noncomputable def sysRun : List (ℕ → Option Body) → SysState → SysState × ℕ
  | [], s => (s, 0)
  | e :: es, s =>
    let t := sysTick e s
    let rest := sysRun es t.1
    (rest.1, t.2 + rest.2)

/-- The system state directly after `rollAll` launched all three dice:
every die rolling, every pending slot null. -/
def initSys : SysState := ⟨List.replicate N true, initApp⟩

/-- The coupling invariant of the composed system: slot `i` holds a value
exactly when die `i` is no longer rolling. -/
def SysInv (s : SysState) : Prop :=
  s.rolling.length = N ∧ s.app.pendingValues.length = N ∧
  ∀ i, i < N →
    (s.app.pendingValues.getD i none).isSome = !(s.rolling.getD i false)

theorem getDiceValue_eq_foldl (q : Quat K) :
    getDiceValue q = (faceMap.foldl (resolveStep q) ((1 : ℤ), none)).1 := rfl

/-- Characterisation of the strict-improvement fold from an already-seen best
score `b`: either nothing beats `b` and the accumulator is unchanged, or the
result is the first entry that beats everything before it (strictly) and is
never later strictly beaten. -/
theorem foldl_resolveStep_spec (q : Quat K) (l : List (Face K)) :
    ∀ (v : ℤ) (b : K),
      ((∀ f ∈ l, faceScore q f ≤ b) ∧
        l.foldl (resolveStep q) (v, some b) = (v, some b)) ∨
      (∃ pre f post, l = pre ++ f :: post ∧
        l.foldl (resolveStep q) (v, some b) = (f.value, some (faceScore q f)) ∧
        b < faceScore q f ∧
        (∀ g ∈ pre, faceScore q g < faceScore q f) ∧
        (∀ g ∈ post, faceScore q g ≤ faceScore q f)) := by
  induction l with
  | nil =>
    intro v b
    exact Or.inl ⟨by simp, rfl⟩
  | cons hd tl ih =>
    intro v b
    by_cases h : b < faceScore q hd
    · have hstep : resolveStep q (v, some b) hd =
          (hd.value, some (faceScore q hd)) := by
        simp [resolveStep, gtBest, h]
      rcases ih hd.value (faceScore q hd) with ⟨hall, heq⟩ | hex
      · refine Or.inr ⟨[], hd, tl, by simp, ?_, h, by simp, hall⟩
        simpa [hstep] using heq
      · rcases hex with ⟨pre, f, post, hsplit, heq, hlt, hpre, hpost⟩
        refine Or.inr ⟨hd :: pre, f, post, by simp [hsplit], ?_, ?_, ?_, hpost⟩
        · simpa [hstep] using heq
        · exact lt_trans h hlt
        · intro g hg
          rcases List.mem_cons.mp hg with hg | hg
          · exact hg ▸ hlt
          · exact hpre g hg
    · have hstep : resolveStep q (v, some b) hd = (v, some b) := by
        simp [resolveStep, gtBest, h]
      rcases ih v b with ⟨hall, heq⟩ | hex
      · refine Or.inl ⟨?_, by simpa [hstep] using heq⟩
        intro f hf
        rcases List.mem_cons.mp hf with hf | hf
        · exact hf ▸ le_of_not_lt h
        · exact hall f hf
      · rcases hex with ⟨pre, f, post, hsplit, heq, hlt, hpre, hpost⟩
        refine Or.inr ⟨hd :: pre, f, post, by simp [hsplit], ?_, hlt, ?_, hpost⟩
        · simpa [hstep] using heq
        · intro g hg
          rcases List.mem_cons.mp hg with hg | hg
          · exact hg ▸ lt_of_le_of_lt (le_of_not_lt h) hlt
          · exact hpre g hg

/-- The full resolver fold: there is always a winning entry `f`, it is the
first entry of `faceMap` attaining the maximum score. -/
theorem getDiceValue_spec (q : Quat K) :
    ∃ pre f post, faceMap (K := K) = pre ++ f :: post ∧
      getDiceValue q = f.value ∧
      (∀ g ∈ faceMap (K := K), faceScore q g ≤ faceScore q f) ∧
      (∀ g ∈ pre, faceScore q g < faceScore q f) := by
  have h0 : faceMap (K := K) =
      (⟨⟨0, 1, 0⟩, 1⟩ : Face K) :: (faceMap (K := K)).tail := rfl
  set f0 : Face K := ⟨⟨0, 1, 0⟩, 1⟩ with hf0
  set rest : List (Face K) := (faceMap (K := K)).tail with hrest
  have hfirst : (faceMap (K := K)).foldl (resolveStep q) ((1 : ℤ), none) =
      rest.foldl (resolveStep q) (f0.value, some (faceScore q f0)) := by
    rw [h0]
    simp [List.foldl_cons, resolveStep, gtBest]
  rcases foldl_resolveStep_spec q rest f0.value (faceScore q f0) with
    ⟨hall, heq⟩ | hex
  · refine ⟨[], f0, rest, by simpa using h0, ?_, ?_, by simp⟩
    · rw [getDiceValue_eq_foldl, hfirst, heq]
    · intro g hg
      rw [h0] at hg
      rcases List.mem_cons.mp hg with hg | hg
      · exact hg ▸ le_refl _
      · exact hall g hg
  · rcases hex with ⟨pre, f, post, hsplit, heq, hlt, hpre, hpost⟩
    refine ⟨f0 :: pre, f, post, ?_, ?_, ?_, ?_⟩
    · rw [h0, hsplit]; rfl
    · rw [getDiceValue_eq_foldl, hfirst, heq]
    · intro g hg
      rw [h0] at hg
      rcases List.mem_cons.mp hg with hg | hg
      · exact hg ▸ le_of_lt hlt
      · rw [hsplit] at hg
        rcases List.mem_append.mp hg with hg | hg
        · exact le_of_lt (hpre g hg)
        · rcases List.mem_cons.mp hg with hg | hg
          · exact hg ▸ le_refl _
          · exact hpost g hg
    · intro g hg
      rcases List.mem_cons.mp hg with hg | hg
      · exact hg ▸ hlt
      · exact hpre g hg

/-- Evaluation helper: the identity quaternion resolves to face value 1. -/
theorem getDiceValue_id : getDiceValue (⟨0, 0, 0, 1⟩ : Quat ℝ) = 1 := by
  norm_num [getDiceValue, faceMap, List.foldl, applyQuaternion, dot, UP, gtBest]

/-- C1: for each of the 6 canonical axis-aligned orientations (identity,
180° about X, ±90° about Z, ±90° about X — each placing one local face
direction at world-up), `getDiceValue` returns exactly the face value
configured for that local direction: +Y→1, −Y→6, +X→4, −X→3, +Z→5, −Z→2;
in particular the identity quaternion resolves to 1. -/
theorem faceResolver_canonical_orientations :
    getDiceValue (⟨0, 0, 0, 1⟩ : Quat ℝ) = 1 ∧
    getDiceValue (⟨1, 0, 0, 0⟩ : Quat ℝ) = 6 ∧
    getDiceValue (⟨0, 0, Real.sqrt 2 / 2, Real.sqrt 2 / 2⟩ : Quat ℝ) = 4 ∧
    getDiceValue (⟨0, 0, -(Real.sqrt 2 / 2), Real.sqrt 2 / 2⟩ : Quat ℝ) = 3 ∧
    getDiceValue (⟨-(Real.sqrt 2 / 2), 0, 0, Real.sqrt 2 / 2⟩ : Quat ℝ) = 5 ∧
    getDiceValue (⟨Real.sqrt 2 / 2, 0, 0, Real.sqrt 2 / 2⟩ : Quat ℝ) = 2 := by
  have h2 : Real.sqrt 2 * Real.sqrt 2 = 2 := Real.mul_self_sqrt (by norm_num)
  refine ⟨getDiceValue_id, ?_, ?_, ?_, ?_, ?_⟩ <;>
    norm_num [getDiceValue, faceMap, List.foldl, applyQuaternion, dot, UP,
      gtBest] <;> (ring_nf; norm_num [h2])

/-- C2: for every quaternion `q`, `getDiceValue q` is the face value of the
first entry of `faceMap` (in table order) attaining the maximum dot product
of its rotated direction with world-up: the winner's score dominates every
entry of the table, and strictly dominates every entry before it; moreover
the function is deterministic (equal inputs give equal values). -/
theorem faceResolver_argmax_first_deterministic (q : Quat ℝ) :
    (∃ pre f post, faceMap (K := ℝ) = pre ++ f :: post ∧
      getDiceValue q = f.value ∧
      (∀ g ∈ faceMap (K := ℝ), faceScore q g ≤ faceScore q f) ∧
      (∀ g ∈ pre, faceScore q g < faceScore q f)) ∧
    (∀ q2 : Quat ℝ, q2 = q → getDiceValue q2 = getDiceValue q) := by
  exact ⟨getDiceValue_spec q, fun q2 h => by rw [h]⟩

/-- C3 counterexample: `getDiceValue` does not reject the zero (degenerate,
non-unit) quaternion; it silently returns the face value 1, so the claimed
fail-fast rejection does not exist in the code. -/
theorem faceResolver_zero_quat_returns_value :
    getDiceValue (⟨0, 0, 0, 0⟩ : Quat ℝ) = 1 := by
  norm_num [getDiceValue, faceMap, List.foldl, applyQuaternion, dot, UP, gtBest]

/-- C3 amended: `getDiceValue` performs no unit-norm precondition check.
Every quaternion — the zero quaternion included — is accepted and silently
mapped to a face value between 1 and 6; the zero quaternion (for which
`applyQuaternion` degenerates to the identity map on directions) yields 1. -/
theorem faceResolver_no_unit_check_silent :
    getDiceValue (⟨0, 0, 0, 0⟩ : Quat ℝ) = 1 ∧
    ∀ q : Quat ℝ, 1 ≤ getDiceValue q ∧ getDiceValue q ≤ 6 := by
  constructor
  · norm_num [getDiceValue, faceMap, List.foldl, applyQuaternion, dot, UP,
      gtBest]
  · intro q
    rcases getDiceValue_spec q with ⟨pre, f, post, hsplit, heq, -, -⟩
    have hf : f ∈ faceMap (K := ℝ) := by
      rw [hsplit]
      exact List.mem_append.mpr (Or.inr (List.mem_cons_self f post))
    rw [heq]
    simp only [faceMap, List.mem_cons, List.not_mem_nil, or_false] at hf
    rcases hf with h | h | h | h | h | h <;> rw [h] <;>
      exact ⟨by norm_num, by norm_num⟩

/-- C10: `getDiceValue` is total on every quaternion (unit or not, the zero
quaternion included) and always returns an integer between 1 and 6: the fold
starts from `bestValue = 1` and only ever replaces it with a `faceMap`
value. -/
theorem faceResolver_total_range (q : Quat ℝ) :
    1 ≤ getDiceValue q ∧ getDiceValue q ≤ 6 := by
  rcases getDiceValue_spec q with ⟨pre, f, post, hsplit, heq, -, -⟩
  have hf : f ∈ faceMap (K := ℝ) := by
    rw [hsplit]
    exact List.mem_append.mpr (Or.inr (List.mem_cons_self f post))
  rw [heq]
  simp only [faceMap, List.mem_cons, List.not_mem_nil, or_false] at hf
  rcases hf with h | h | h | h | h | h <;> rw [h] <;>
    exact ⟨by norm_num, by norm_num⟩

/-- The strict speed comparison of the source, `Math.hypot(...) < c`, is the
squared comparison on the raw velocity components. -/
theorem hypot3_lt_iff (v : Vec3 ℝ) (c : ℝ) (hc : 0 < c) :
    hypot3 v < c ↔ v.x ^ 2 + v.y ^ 2 + v.z ^ 2 < c ^ 2 := by
  unfold hypot3
  exact Real.sqrt_lt' hc

/-- An idle (not rolling) die's poll does nothing and emits nothing. -/
theorem useFrameTick_idle (b : Option Body) :
    useFrameTick false b = (false, none) := by
  simp [useFrameTick]

/-- A rolling die's poll with a present body either settles (emitting the
resolved face value and clearing the flag) or stays rolling and silent. -/
theorem useFrameTick_rolling_cases (bb : Body) :
    useFrameTick true (some bb) = (false, some (getDiceValue bb.rotation)) ∨
    useFrameTick true (some bb) = (true, none) := by
  by_cases h : hypot3 bb.linvel < 0.05 ∧ hypot3 bb.angvel < 0.05 <;>
    simp [useFrameTick, h]

/-- While idle, an arbitrary sequence of polls is a no-op: the die stays
idle and nothing is ever emitted. -/
theorem tickTrace_idle (bs : List (Option Body)) :
    tickTrace false bs = (false, []) := by
  induction bs with
  | nil => rfl
  | cons b bs ih =>
    simp only [tickTrace, useFrameTick_idle, ih, Option.toList_none,
      List.nil_append]

/-- C4: per-tick settle poll of a rolling die with a present body: a settle
is signalled — face value resolved from the current orientation, phase moved
to idle — exactly when both the linear speed and the angular speed are
strictly below `0.05`; otherwise nothing is emitted and the die stays
rolling; with the body handle absent the tick is silently skipped. -/
theorem settleDetector_threshold_iff (b : Body) :
    (useFrameTick true (some b) = (false, some (getDiceValue b.rotation)) ↔
      hypot3 b.linvel < 0.05 ∧ hypot3 b.angvel < 0.05) ∧
    (¬(hypot3 b.linvel < 0.05 ∧ hypot3 b.angvel < 0.05) →
      useFrameTick true (some b) = (true, none)) ∧
    useFrameTick true none = (true, none) := by
  by_cases h : hypot3 b.linvel < 0.05 ∧ hypot3 b.angvel < 0.05
  · refine ⟨⟨fun _ => h, fun _ => ?_⟩, fun hn => absurd h hn,
      by simp [useFrameTick]⟩
    simp [useFrameTick, h]
  · refine ⟨⟨fun he => ?_, fun hh => absurd hh h⟩, fun _ => ?_,
      by simp [useFrameTick]⟩
    · rw [show useFrameTick true (some b) = (true, none) by
        simp [useFrameTick, h]] at he
      simp at he
    · simp [useFrameTick, h]

/-- C4 witness: a still body settles with the resolved face value; a body
with linear speed 1 does not settle and stays rolling. -/
theorem settleDetector_threshold_iff_witness :
    useFrameTick true (some ⟨⟨0, 0, 0⟩, ⟨0, 0, 0⟩, ⟨0, 0, 0, 1⟩⟩) =
      (false, some 1) ∧
    useFrameTick true (some ⟨⟨1, 0, 0⟩, ⟨0, 0, 0⟩, ⟨0, 0, 0, 1⟩⟩) =
      (true, none) := by
  constructor
  · have h := (settleDetector_threshold_iff
        ⟨⟨0, 0, 0⟩, ⟨0, 0, 0⟩, ⟨0, 0, 0, 1⟩⟩).1.mpr
      ⟨by norm_num [hypot3], by norm_num [hypot3]⟩
    rw [h]
    rw [show getDiceValue (⟨0, 0, 0, 1⟩ : Quat ℝ) = 1 from getDiceValue_id]
  · exact (settleDetector_threshold_iff
        ⟨⟨1, 0, 0⟩, ⟨0, 0, 0⟩, ⟨0, 0, 0, 1⟩⟩).2.1
      (by norm_num [hypot3])

/-- C5: once a die is idle, any sequence of subsequent polls leaves it idle
and emits no settle signal; only `roll` (with a present body) sets the
rolling flag again; and from a rolling start, any sequence of polls emits at
most one settle signal — at most one settle per die per roll cycle. -/
theorem settleDetector_idle_no_resettle (bs : List (Option Body)) :
    tickTrace false bs = (false, []) ∧
    (tickTrace true bs).2.length ≤ 1 ∧
    (∀ (rolling : Bool) (spawn : Vec3 ℝ) (r : Fin 9 → ℝ),
      (roll true rolling spawn r).1 = true) := by
  refine ⟨tickTrace_idle bs, ?_, fun rolling spawn r => rfl⟩
  induction bs with
  | nil => simp [tickTrace]
  | cons b bs ih =>
    rcases b with - | bb
    · have hn : useFrameTick true none = (true, none) := by
        simp [useFrameTick]
      simp only [tickTrace, hn, Option.toList_none, List.nil_append]
      exact ih
    · rcases useFrameTick_rolling_cases bb with h | h
      · simp [tickTrace, h, tickTrace_idle]
      · simp only [tickTrace, h, Option.toList_none, List.nil_append]
        exact ih

/-- C6: every `roll` on a present body issues exactly this command list:
teleport to spawn, zero linear and angular velocity, a random rotation from
three Euler angles each in `[0, 2π)`, a wake-up, then exactly one linear
impulse — X and Z components in `[−impulseStrength/2, impulseStrength/2]`,
Y component in `[upBoost, upBoost + 1]`, hence strictly positive — and
exactly one torque impulse with each component in
`[−torqueStrength/2, torqueStrength/2]` — for all draws in `[0, 1)`. -/
theorem throwLauncher_launch_commands (rolling : Bool) (spawn : Vec3 ℝ)
    (r : Fin 9 → ℝ) (h : ∀ i, 0 ≤ r i ∧ r i < 1) :
    roll true rolling spawn r =
      (true,
       [Cmd.setTranslation spawn,
        Cmd.setLinvel ⟨0, 0, 0⟩,
        Cmd.setAngvel ⟨0, 0, 0⟩,
        Cmd.setRotation (quatFromEuler (r 0 * Real.pi * 2)
          (r 1 * Real.pi * 2) (r 2 * Real.pi * 2)),
        Cmd.wakeUp,
        Cmd.applyImpulse ⟨(r 3 - 0.5) * impulseStrength,
          upBoost + r 5 * 1.0, (r 4 - 0.5) * impulseStrength⟩,
        Cmd.applyTorqueImpulse ⟨(r 6 - 0.5) * torqueStrength,
          (r 7 - 0.5) * torqueStrength, (r 8 - 0.5) * torqueStrength⟩]) ∧
    (roll true rolling spawn r).2.countP (fun c => c.isImpulse) = 1 ∧
    (roll true rolling spawn r).2.countP (fun c => c.isTorqueImpulse) = 1 ∧
    (∀ i, 0 ≤ r i * Real.pi * 2 ∧ r i * Real.pi * 2 < 2 * Real.pi) ∧
    (∀ i, -(impulseStrength / 2) ≤ (r i - 0.5) * impulseStrength ∧
      (r i - 0.5) * impulseStrength ≤ impulseStrength / 2) ∧
    upBoost ≤ upBoost + r 5 * 1.0 ∧ upBoost + r 5 * 1.0 ≤ upBoost + 1 ∧
    0 < upBoost + r 5 * 1.0 ∧
    (∀ i, -(torqueStrength / 2) ≤ (r i - 0.5) * torqueStrength ∧
      (r i - 0.5) * torqueStrength ≤ torqueStrength / 2) := by
  have hpi := Real.pi_pos
  refine ⟨rfl, ?_, ?_, ?_, ?_, ?_, ?_, ?_, ?_⟩
  · simp [roll, List.countP_cons, Cmd.isImpulse]
  · simp [roll, List.countP_cons, Cmd.isTorqueImpulse]
  · intro i
    rcases h i with ⟨h0, h1⟩
    constructor
    · positivity
    · nlinarith
  · intro i
    rcases h i with ⟨h0, h1⟩
    unfold impulseStrength
    constructor <;> nlinarith
  · rcases h 5 with ⟨h0, h1⟩
    unfold upBoost
    nlinarith
  · rcases h 5 with ⟨h0, h1⟩
    unfold upBoost
    nlinarith
  · rcases h 5 with ⟨h0, h1⟩
    unfold upBoost
    nlinarith
  · intro i
    rcases h i with ⟨h0, h1⟩
    unfold torqueStrength
    constructor <;> nlinarith

/-- C6 witness: with all draws 0, the launch issues exactly one linear and
one torque impulse, and the Y impulse component is `upBoost`. -/
theorem throwLauncher_launch_commands_witness :
    (roll true false ⟨-1.2, 10, 0⟩ (fun _ => 0)).2.countP
      (fun c => c.isImpulse) = 1 ∧
    upBoost ≤ upBoost + (fun _ : Fin 9 => (0 : ℝ)) 5 * 1.0 := by
  have h := throwLauncher_launch_commands false ⟨-1.2, 10, 0⟩ (fun _ => 0)
    (fun i => by norm_num)
  exact ⟨h.2.1, h.2.2.2.2.2.1⟩

/-- C7: the `onSettled` update never populates `finalValues` while some
pending slot is still null — in particular, from the fresh state, reporting
dice 0 and 1 only leaves `finalValues` null — and on the update that makes
every slot non-null, `finalValues` becomes the pending vector in die-index
order and the completion predicate (`sum === 3`) is evaluated. -/
theorem rollSession_aggregation_completeness (s : AppState) (i : ℕ) (v : ℤ) :
    (¬((s.pendingValues.set i (some v)).all (fun x => x.isSome) = true) →
      onSettled i v s =
        ⟨s.pendingValues.set i (some v), s.finalValues, s.modalOpen⟩) ∧
    ((s.pendingValues.set i (some v)).all (fun x => x.isSome) = true →
      (onSettled i v s).pendingValues = s.pendingValues.set i (some v) ∧
      (onSettled i v s).finalValues =
        some (s.pendingValues.set i (some v)).reduceOption ∧
      (onSettled i v s).modalOpen =
        (if (s.pendingValues.set i (some v)).reduceOption.sum = 3 then true
         else s.modalOpen)) ∧
    (∀ v0 v1 : ℤ,
      (onSettled 1 v1 (onSettled 0 v0 initApp)).finalValues = none) := by
  refine ⟨?_, ?_, ?_⟩
  · intro hn
    simp [onSettled, hn]
  · intro hy
    simp [onSettled, hy]
  · intro v0 v1
    simp [onSettled, initApp, N, List.replicate]

/-- C7 witness: completing the last null slot publishes the vector in die
order; reporting a single die of three leaves `finalValues` null. -/
theorem rollSession_aggregation_completeness_witness :
    (onSettled 1 4 ⟨[some 5, none, some 2], none, false⟩).finalValues =
      some [5, 4, 2] ∧
    (onSettled 0 7 initApp).finalValues = none := by
  constructor
  · have h := (rollSession_aggregation_completeness
      ⟨[some 5, none, some 2], none, false⟩ 1 4).2.1 (by decide)
    exact h.2.1.trans (by decide)
  · have h := (rollSession_aggregation_completeness initApp 0 7).1 (by decide)
    rw [h]
    rfl

/-- C8: every `rollAll` — regardless of the prior session state, completed
or mid-roll — resets `pendingValues` to all-null, clears `finalValues`,
closes the modal, and launches exactly the dice whose handles are present;
nothing recorded before survives into the new cycle. -/
theorem rollSession_reset_semantics (prior : AppState) (refs : List Bool) :
    (rollAll prior refs).1.pendingValues = List.replicate N none ∧
    (rollAll prior refs).1.finalValues = none ∧
    (rollAll prior refs).1.modalOpen = false ∧
    (∀ i : ℕ, i ∈ (rollAll prior refs).2 ↔
      i < refs.length ∧ refs.getD i false = true) := by
  refine ⟨rfl, rfl, rfl, fun i => ?_⟩
  simp [rollAll, List.mem_filter, List.mem_range]

/-- Both branches of `onSettled` store the updated pending vector. -/
theorem onSettled_pendingValues (i : ℕ) (v : ℤ) (s : AppState) :
    (onSettled i v s).pendingValues = s.pendingValues.set i (some v) := by
  by_cases h : (s.pendingValues.set i (some v)).all (fun x => x.isSome) <;>
    simp [onSettled, h]

/-- Reading back a written slot. -/
theorem getD_set_self {A : Type} (l : List A) (i : ℕ) (a d : A)
    (h : i < l.length) : (l.set i a).getD i d = a := by
  simp [List.getD_eq_getElem?_getD, List.getElem?_set_self',
    List.getElem?_eq_getElem h]

/-- Reading an untouched slot. -/
theorem getD_set_ne {A : Type} (l : List A) (i j : ℕ) (a d : A)
    (h : j ≠ i) : (l.set i a).getD j d = l.getD j d := by
  simp [List.getD_eq_getElem?_getD, List.getElem?_set_ne (by omega : i ≠ j)]

/-- If every slot of a pending vector is non-null, so is each read slot. -/
theorem all_isSome_getD (l : List (Option ℤ))
    (h : l.all (fun x => x.isSome) = true) (i : ℕ) (hi : i < l.length) :
    (l.getD i none).isSome = true := by
  rw [List.all_eq_true] at h
  have hm := h (l.get ⟨i, hi⟩) (List.get_mem l i hi)
  simpa [List.getD_eq_getElem?_getD, List.getElem?_eq_getElem hi,
    List.get_eq_getElem] using hm

/-- One die's frame step preserves the coupling invariant; it takes the
completion branch at most once; it is a strict no-op when every die has
already reported; and if it fires the completion branch, afterwards every
slot is non-null. -/
theorem dieTick_spec (b : Option Body) (i : ℕ) (s : SysState)
    (h : SysInv s) :
    SysInv (dieTick b i s).1 ∧ (dieTick b i s).2 ≤ 1 ∧
    (allReported s.app = true → dieTick b i s = (s, 0)) ∧
    ((dieTick b i s).2 = 1 → allReported (dieTick b i s).1.app = true) := by
  obtain ⟨hlen, hplen, hinv⟩ := h
  by_cases hr : s.rolling.getD i false = true
  case neg =>
    have hr0 : s.rolling.getD i false = false := by
      cases hfb : s.rolling.getD i false
      · rfl
      · exact absurd hfb hr
    have hd : dieTick b i s = (s, 0) := by
      unfold dieTick
      rw [hr0, useFrameTick_idle]
    rw [hd]
    exact ⟨⟨hlen, hplen, hinv⟩, by norm_num, fun _ => rfl, by simp⟩
  case pos =>
    have hilt : i < s.rolling.length := by
      by_contra hge
      rw [List.getD_eq_getElem?_getD, List.getElem?_eq_none (by omega)] at hr
      simp at hr
    have hiN : i < N := by omega
    have hip : i < s.app.pendingValues.length := by omega
    have hpend_none : (s.app.pendingValues.getD i none).isSome = false := by
      rw [hinv i hiN, hr]
      rfl
    have hnotall : allReported s.app = false := by
      cases hall : allReported s.app
      · rfl
      · exact absurd (all_isSome_getD _ hall i hip) (by rw [hpend_none]; simp)
    rcases hu : useFrameTick (s.rolling.getD i false) b with ⟨rb, emit⟩
    cases emit with
    | none =>
      have hd : dieTick b i s = (s, 0) := by
        unfold dieTick
        rw [hu]
      rw [hd]
      exact ⟨⟨hlen, hplen, hinv⟩, by norm_num, fun _ => rfl, by simp⟩
    | some v =>
      have hd : dieTick b i s =
          (⟨s.rolling.set i false, onSettled i v s.app⟩,
           if completionFired i v s.app then 1 else 0) := by
        unfold dieTick
        rw [hu]
      refine ⟨?_, ?_, ?_, ?_⟩
      · rw [hd]
        refine ⟨by simpa using hlen, by simpa [onSettled_pendingValues] using hplen, ?_⟩
        intro j hj
        by_cases hij : j = i
        · subst hij
          rw [onSettled_pendingValues, getD_set_self _ _ _ _ hip,
            getD_set_self _ _ _ _ hilt]
          rfl
        · rw [onSettled_pendingValues, getD_set_ne _ _ _ _ _ hij,
            getD_set_ne _ _ _ _ _ hij]
          exact hinv j hj
      · rw [hd]
        split <;> norm_num
      · intro hall
        exact absurd hall (by simp [hnotall])
      · intro hfire
        rw [hd] at hfire ⊢
        by_cases hcf : completionFired i v s.app = true
        · unfold allReported
          rw [onSettled_pendingValues]
          exact hcf
        · rw [if_neg hcf] at hfire
          exact absurd hfire (by norm_num)

/-- Running the per-die steps over any index list preserves the invariant,
fires completion at most once, is a no-op once all dice have reported, and
leaves all slots non-null whenever it did fire. -/
theorem diceTicksAux_spec (env : ℕ → Option Body) (l : List ℕ) :
    ∀ s : SysState, SysInv s →
      SysInv (diceTicksAux env l s).1 ∧
      (diceTicksAux env l s).2 ≤ 1 ∧
      (allReported s.app = true → diceTicksAux env l s = (s, 0)) ∧
      (1 ≤ (diceTicksAux env l s).2 →
        allReported (diceTicksAux env l s).1.app = true) := by
  induction l with
  | nil =>
    intro s hs
    exact ⟨hs, Nat.zero_le _, fun _ => rfl,
      fun h2 => absurd h2 (Nat.not_succ_le_zero 0)⟩
  | cons i rest ih =>
    intro s hs
    obtain ⟨hinv1, hle1, hall1, hfire1⟩ := dieTick_spec (env i) i s hs
    obtain ⟨hinv2, hle2, hall2, hfire2⟩ := ih (dieTick (env i) i s).1 hinv1
    have hunfold : diceTicksAux env (i :: rest) s =
        ((diceTicksAux env rest (dieTick (env i) i s).1).1,
         (dieTick (env i) i s).2 +
           (diceTicksAux env rest (dieTick (env i) i s).1).2) := rfl
    have himp : (dieTick (env i) i s).2 = 1 →
        (diceTicksAux env rest (dieTick (env i) i s).1).2 = 0 := by
      intro h1
      rw [hall2 (hfire1 h1)]
    refine ⟨by rw [hunfold]; exact hinv2, ?_, ?_, ?_⟩
    · rw [hunfold]
      by_cases h1 : (dieTick (env i) i s).2 = 1
      · rw [himp h1, h1]
      · omega
    · intro hall
      have ht : dieTick (env i) i s = (s, 0) := hall1 hall
      have hrest : diceTicksAux env rest s = (s, 0) := (ih s hs).2.2.1 hall
      rw [hunfold, ht]
      simp [hrest]
    · intro hge
      rw [hunfold] at hge ⊢
      by_cases h2 : 1 ≤ (diceTicksAux env rest (dieTick (env i) i s).1).2
      · exact hfire2 h2
      · have h1 : (dieTick (env i) i s).2 = 1 := by omega
        have hz := himp h1
        have hrest := hall2 (hfire1 h1)
        rw [hrest]
        exact hfire1 h1

/-- Running whole frames from an invariant state fires completion at most
once in total, and never fires once every die has already reported. -/
theorem sysRun_spec (envs : List (ℕ → Option Body)) :
    ∀ s : SysState, SysInv s →
      (sysRun envs s).2 ≤ 1 ∧
      (allReported s.app = true → (sysRun envs s).2 = 0) := by
  induction envs with
  | nil =>
    intro s hs
    exact ⟨Nat.zero_le _, fun _ => rfl⟩
  | cons e es ih =>
    intro s hs
    obtain ⟨hinv1, hle1, hall1, hfire1⟩ := diceTicksAux_spec e (List.range N) s hs
    obtain ⟨hle2, hzero2⟩ := ih (sysTick e s).1 hinv1
    have hunfold : sysRun (e :: es) s =
        ((sysRun es (sysTick e s).1).1,
         (sysTick e s).2 + (sysRun es (sysTick e s).1).2) := rfl
    have himp : 1 ≤ (sysTick e s).2 → (sysRun es (sysTick e s).1).2 = 0 :=
      fun h1 => hzero2 (hfire1 h1)
    refine ⟨?_, ?_⟩
    · rw [hunfold]
      by_cases h1 : 1 ≤ (sysTick e s).2
      · have := himp h1
        have : (sysTick e s).2 ≤ 1 := hle1
        omega
      · have := hle2
        omega
    · intro hall
      have ht : sysTick e s = (s, 0) := hall1 hall
      have hz : (sysRun es s).2 = 0 := (ih s hs).2 hall
      rw [hunfold, ht]
      simp [hz]

/-- The coupling invariant holds right after launch. -/
theorem sysInv_init : SysInv initSys := by
  refine ⟨rfl, rfl, ?_⟩
  intro i hi
  have h3 : i < 3 := hi
  interval_cases i <;> rfl

/-- C9: from the freshly launched system state (all three dice rolling,
all pending slots null), any sequence of simulated frames takes the
completion branch of `onSettled` at most once — the rolling-phase guard of
the per-die poll means a settled die never reports again — and from any
invariant state in which every die has already reported, the completion
branch never fires again. -/
theorem rollSession_completion_at_most_once
    (envs : List (ℕ → Option Body)) :
    (sysRun envs initSys).2 ≤ 1 ∧
    (∀ s : SysState, SysInv s → allReported s.app = true →
      (sysRun envs s).2 = 0) := by
  constructor
  · exact (sysRun_spec envs initSys sysInv_init).1
  · intro s hs hall
    exact (sysRun_spec envs s hs).2 hall

/-- C9 witness: in a fully reported, fully idle state, a further frame
fires no completion. -/
theorem rollSession_completion_at_most_once_witness :
    (sysRun [fun _ => none]
      ⟨[false, false, false],
       ⟨[some 1, some 1, some 1], some [1, 1, 1], true⟩⟩).2 = 0 := by
  exact (rollSession_completion_at_most_once [fun _ => none]).2
    ⟨[false, false, false], ⟨[some 1, some 1, some 1], some [1, 1, 1], true⟩⟩
    (by
      refine ⟨rfl, rfl, ?_⟩
      intro i hi
      have h3 : i < 3 := hi
      interval_cases i <;> rfl)
    (by decide)

end HbCarbon
